import Mathlib

/-!
Verification of the CodeQL migrator against its design specification.

The development shallowly embeds the relevant parts of `src/migrator.py`:

* the fixed substitution table `CODEQL_UPDATES` and the exact-literal
  replacement it induces on file content (the application loop of
  `find_and_update_workflows` is not present under `src/`, so the
  replacement operator is modelled from the spec: Python `str.replace`
  applied for every table entry in table order);
* the retry decorator `retry_with_backoff`;
* the per-repository pipeline `process_repository` (its callees
  `clone_repo`, `find_and_update_workflows`, `prompt_user`,
  `create_pull_request`, `cleanup_resources` are not present under `src/`
  and are modelled from the spec as an outcome environment);
* the report generator `generate_migration_report`;
* the workflow validator `validate_workflow_file` over a model of parsed
  YAML values and Python dynamic semantics.

Strings are modelled as `List Char`; all definitions are executable.
-/

/-- `startsWith p s` holds when the character list `p` is a prefix of `s`
(Python `s.startswith(p)` over the decoded character sequence). -/
def startsWith : List Char → List Char → Bool
  | [], _ => true
  | _ :: _, [] => false
  | a :: p, b :: s => decide (a = b) && startsWith p s

/-- `endsWith a b` holds when `a` is a suffix of `b`. -/
def endsWith (a b : List Char) : Bool := startsWith a.reverse b.reverse

/-- `hasSub q s` holds when `q` occurs as a contiguous substring of `s`
(Python `q in s` for strings). -/
def hasSub (q : List Char) : List Char → Bool
  | [] => q.isEmpty
  | c :: t => startsWith q (c :: t) || hasSub q t

theorem startsWith_iff (p s : List Char) : startsWith p s = true ↔ ∃ t, s = p ++ t := by
  induction p generalizing s with
  | nil => simp [startsWith]
  | cons a p ih =>
    cases s with
    | nil => simp [startsWith]
    | cons b t =>
      simp only [startsWith, Bool.and_eq_true, decide_eq_true_eq, ih]
      constructor
      · rintro ⟨rfl, u, rfl⟩
        exact ⟨u, rfl⟩
      · rintro ⟨u, hu⟩
        injection hu with hu1 hu2
        exact ⟨hu1.symm, u, hu2⟩

theorem startsWith_append_self (p t : List Char) : startsWith p (p ++ t) = true :=
  (startsWith_iff p (p ++ t)).mpr ⟨t, rfl⟩

theorem startsWith_self (p : List Char) : startsWith p p = true := by
  have := startsWith_append_self p []
  simpa using this

theorem endsWith_iff (a b : List Char) : endsWith a b = true ↔ ∃ w, b = w ++ a := by
  unfold endsWith
  rw [startsWith_iff]
  constructor
  · rintro ⟨t, ht⟩
    refine ⟨t.reverse, ?_⟩
    have h2 := congrArg List.reverse ht
    simpa [List.reverse_append] using h2
  · rintro ⟨w, rfl⟩
    exact ⟨w.reverse, by simp [List.reverse_append]⟩

theorem hasSub_iff (q s : List Char) : hasSub q s = true ↔ ∃ a b, s = a ++ q ++ b := by
  induction s with
  | nil =>
    simp only [hasSub, List.isEmpty_iff]
    constructor
    · rintro rfl
      exact ⟨[], [], rfl⟩
    · rintro ⟨a, b, hab⟩
      have := hab.symm
      simp only [List.append_eq_nil] at this
      exact this.1.2
  | cons c t ih =>
    simp only [hasSub, Bool.or_eq_true, ih]
    constructor
    · rintro (hsw | ⟨a, b, rfl⟩)
      · obtain ⟨u, hu⟩ := (startsWith_iff _ _).mp hsw
        exact ⟨[], u, by simpa using hu⟩
      · exact ⟨c :: a, b, rfl⟩
    · rintro ⟨a, b, hab⟩
      cases a with
      | nil =>
        left
        exact (startsWith_iff _ _).mpr ⟨b, by simpa using hab⟩
      | cons a0 a1 =>
        right
        injection hab with h1 h2
        exact ⟨a1, b, h2⟩

theorem hasSub_nil {q : List Char} (hq : q ≠ []) : hasSub q [] = false := by
  cases q with
  | nil => exact absurd rfl hq
  | cons a q => simp [hasSub, List.isEmpty]

theorem startsWith_nil_right {q : List Char} (hq : q ≠ []) : startsWith q [] = false := by
  cases q with
  | nil => exact absurd rfl hq
  | cons a q => simp [startsWith]

theorem hasSub_of_startsWith {q s : List Char} (h : startsWith q s = true) :
    hasSub q s = true := by
  cases s with
  | nil =>
    cases q with
    | nil => simp [hasSub, List.isEmpty]
    | cons a q => simp [startsWith] at h
  | cons c t => simp [hasSub, h]

theorem hasSub_cons_of {q t : List Char} (c : Char) (h : hasSub q t = true) :
    hasSub q (c :: t) = true := by
  simp [hasSub, h]

theorem hasSub_append_right {q b : List Char} (a : List Char) (h : hasSub q b = true) :
    hasSub q (a ++ b) = true := by
  obtain ⟨x, y, rfl⟩ := (hasSub_iff _ _).mp h
  exact (hasSub_iff _ _).mpr ⟨a ++ x, y, by simp⟩

theorem hasSub_drop_le {q s : List Char} {n : Nat} (h : hasSub q (List.drop n s) = true) :
    hasSub q s = true := by
  have h2 := hasSub_append_right (List.take n s) h
  rwa [List.take_append_drop] at h2

theorem startsWith_append_split {a b c : List Char} (h : startsWith a (b ++ c) = true) :
    startsWith a b = true ∨ ∃ a2, a = b ++ a2 ∧ startsWith a2 c = true := by
  induction b generalizing a with
  | nil => exact Or.inr ⟨a, rfl, h⟩
  | cons x b2 ih =>
    cases a with
    | nil => exact Or.inl rfl
    | cons y a2 =>
      simp only [List.cons_append, startsWith, Bool.and_eq_true, decide_eq_true_eq] at h
      obtain ⟨rfl, h2⟩ := h
      rcases ih h2 with h3 | ⟨a3, rfl, h4⟩
      · left
        simp [startsWith, h3]
      · right
        exact ⟨a3, rfl, h4⟩

theorem hasSub_append_split {q a b : List Char} (h : hasSub q (a ++ b) = true) :
    hasSub q a = true ∨ hasSub q b = true ∨
      ∃ q1 q2, q = q1 ++ q2 ∧ q1 ≠ [] ∧ q2 ≠ [] ∧
        endsWith q1 a = true ∧ startsWith q2 b = true := by
  induction a with
  | nil => exact Or.inr (Or.inl (by simpa using h))
  | cons c a2 ih =>
    rw [List.cons_append] at h
    simp only [hasSub, Bool.or_eq_true] at h
    rcases h with hsw | ht
    · cases q with
      | nil =>
        left
        simp [hasSub, startsWith]
      | cons d q2 =>
        simp only [startsWith, Bool.and_eq_true, decide_eq_true_eq] at hsw
        obtain ⟨rfl, hsw2⟩ := hsw
        rcases startsWith_append_split hsw2 with h3 | ⟨q3, rfl, h4⟩
        · left
          exact hasSub_of_startsWith (by simp [startsWith, h3])
        · cases q3 with
          | nil =>
            left
            have : startsWith (d :: (a2 ++ [])) (d :: a2) = true := by
              simp [startsWith, startsWith_self]
            exact hasSub_of_startsWith (by simpa using this)
          | cons e q4 =>
            right; right
            refine ⟨d :: a2, e :: q4, by simp, by simp, by simp, ?_, h4⟩
            exact (endsWith_iff _ _).mpr ⟨[], by simp⟩
    · rcases ih ht with h3 | h3 | ⟨q1, q2, hq, h1, h2, he, hs2⟩
      · exact Or.inl (hasSub_cons_of c h3)
      · exact Or.inr (Or.inl h3)
      · right; right
        refine ⟨q1, q2, hq, h1, h2, ?_, hs2⟩
        obtain ⟨w, rfl⟩ := (endsWith_iff _ _).mp he
        exact (endsWith_iff _ _).mpr ⟨c :: w, rfl⟩

/-- Fuel-indexed worker for exact-literal replacement. The fuel is an upper
bound on the length of the remaining text; it makes the recursion structural
so that the function evaluates by kernel reduction. -/
def replF (p r : List Char) : Nat → List Char → List Char
  | _, [] => []
  | 0, _ :: _ => []
  | f + 1, c :: t =>
    match p with
    | [] => c :: t
    | _ :: _ =>
      if startsWith p (c :: t) then r ++ replF p r f (List.drop p.length (c :: t))
      else c :: replF p r f t

/-- Modelled from the spec: `content.replace(old, new)` — replace every
non-overlapping occurrence of `p` in `s` by `r`, scanning left to right.
This is the elementary step of the substitution loop of
`find_and_update_workflows`, which is not present under `src/`; the spec
states it applies every entry of the fixed substitution table in table
order by exact-literal match-and-replace. -/
def repl (p r s : List Char) : List Char := replF p r s.length s

theorem replF_fuel (p r : List Char) :
    ∀ f s, s.length ≤ f → replF p r f s = replF p r s.length s := by
  intro f
  induction f using Nat.strong_induction_on with
  | _ f ih =>
    intro s hs
    cases s with
    | nil => cases f <;> rfl
    | cons c t =>
      cases f with
      | zero => simp at hs
      | succ f =>
      cases p with
      | nil => rfl
      | cons ph pt =>
        have hlt : f < f + 1 := Nat.lt_succ_self f
        have htn : t.length ≤ f := by
          simpa [Nat.succ_le_succ_iff] using hs
        have htlt : t.length < f + 1 := Nat.lt_succ_of_le htn
        show replF (ph :: pt) r (f + 1) (c :: t) = replF (ph :: pt) r (t.length + 1) (c :: t)
        simp only [replF]
        by_cases hsw : startsWith (ph :: pt) (c :: t) = true
        · rw [if_pos hsw, if_pos hsw]
          have hd : (List.drop (ph :: pt).length (c :: t)).length ≤ f := by
            simp only [List.length_drop, List.length_cons]
            omega
          have hd2 : (List.drop (ph :: pt).length (c :: t)).length ≤ t.length := by
            simp only [List.length_drop, List.length_cons]
            omega
          rw [ih f hlt _ hd, ih t.length htlt _ hd2]
        · rw [if_neg hsw, if_neg hsw, ih f hlt t htn, ih t.length htlt t le_rfl]

theorem repl_nil_pat (r s : List Char) : repl [] r s = s := by
  cases s <;> rfl

theorem repl_nil (p r : List Char) : repl p r [] = [] := by
  cases p <;> rfl

theorem repl_pos {p : List Char} (hp : p ≠ []) {c : Char} {t : List Char}
    (h : startsWith p (c :: t) = true) (r : List Char) :
    repl p r (c :: t) = r ++ repl p r (List.drop p.length (c :: t)) := by
  cases p with
  | nil => exact absurd rfl hp
  | cons ph pt =>
    show replF (ph :: pt) r (t.length + 1) (c :: t) = _
    simp only [replF, if_pos h]
    congr 1
    apply replF_fuel
    simp only [List.length_drop, List.length_cons]
    omega

theorem repl_neg {p : List Char} (hp : p ≠ []) {c : Char} {t : List Char}
    (h : startsWith p (c :: t) = false) (r : List Char) :
    repl p r (c :: t) = c :: repl p r t := by
  cases p with
  | nil => exact absurd rfl hp
  | cons ph pt =>
    show replF (ph :: pt) r (t.length + 1) (c :: t) = _
    simp only [replF, if_neg (by simp [h] : ¬ startsWith (ph :: pt) (c :: t) = true)]
    rfl

/-- Replacement is the identity on text with no occurrence of the pattern. -/
theorem repl_of_hasSub_false {p r s : List Char} (h : hasSub p s = false) :
    repl p r s = s := by
  induction s with
  | nil => exact repl_nil p r
  | cons c t ih =>
    cases p with
    | nil => exact repl_nil_pat r (c :: t)
    | cons ph pt =>
      simp only [hasSub, Bool.or_eq_false_iff] at h
      rw [repl_neg (by simp) h.1, ih h.2]

/-- When the pattern occurs, the replacement string occurs literally in the
output. -/
theorem repl_intro {p r s : List Char} (hp : p ≠ []) (h : hasSub p s = true) :
    ∃ a b, repl p r s = a ++ r ++ b := by
  induction s with
  | nil => rw [hasSub_nil hp] at h; exact absurd h (by simp)
  | cons c t ih =>
    by_cases hsw : startsWith p (c :: t) = true
    · exact ⟨[], repl p r (List.drop p.length (c :: t)), by rw [repl_pos hp hsw]; simp⟩
    · have hsw2 : startsWith p (c :: t) = false := by simpa using hsw
      have h2 : hasSub p t = true := by
        simp only [hasSub, Bool.or_eq_true] at h
        rcases h with h | h
        · rw [hsw2] at h; exact absurd h (by simp)
        · exact h
      obtain ⟨a, b, hab⟩ := ih h2
      exact ⟨c :: a, b, by rw [repl_neg hp hsw2, hab]; simp⟩

/-- A segment in which no occurrence of the pattern starts is copied
verbatim by the replacement scan. -/
theorem repl_skip {p r : List Char} :
    ∀ v2 y, (∀ i, i < v2.length → startsWith p (v2.drop i ++ y) = false) →
      repl p r (v2 ++ y) = v2 ++ repl p r y := by
  intro v2
  induction v2 with
  | nil => intro y _; simp
  | cons c v3 ih =>
    intro y hyp
    cases p with
    | nil => rw [repl_nil_pat, repl_nil_pat]
    | cons ph pt =>
      have h0 : startsWith (ph :: pt) (c :: (v3 ++ y)) = false := by
        have := hyp 0 (by simp)
        simpa using this
      rw [List.cons_append, repl_neg (by simp) h0,
        ih y (fun i hi => by
          have := hyp (i + 1) (by simpa using Nat.succ_lt_succ hi)
          simpa using this)]
      simp

/-- Core non-occurrence lemma for the replacement scan. Under the four
separation conditions between a watched pattern `q` and the replacement
string `r`, scanning for `p` and substituting `r` leaves no occurrence of
`q`, provided `q` is the scanned pattern itself or was absent from the
input. The second conjunct strengthens the induction: suffixes of `q`
that did not start the input do not start the output either. -/
theorem repl_free_aux (q p r : List Char) (hq : q ≠ [])
    (D1 : hasSub q r = false)
    (D2 : ∀ q1 q2, q = q1 ++ q2 → q1 ≠ [] → q2 ≠ [] → endsWith q1 r = false)
    (D3 : ∀ w q2, q = w ++ q2 → q2 ≠ [] → startsWith q2 r = false)
    (D4 : hasSub r q = false) :
    ∀ n s, s.length ≤ n → (q = p ∨ hasSub q s = false) →
      hasSub q (repl p r s) = false ∧
      (∀ w q2, q = w ++ q2 → q2 ≠ [] → startsWith q2 s = false →
        startsWith q2 (repl p r s) = false) := by
  intro n
  induction n with
  | zero =>
    intro s hs _
    have hnil : s = [] := List.length_eq_zero.mp (Nat.le_zero.mp hs)
    subst hnil
    rw [repl_nil]
    exact ⟨hasSub_nil hq, fun w q2 _ hne _ => startsWith_nil_right hne⟩
  | succ n ih =>
    intro s hs hyp
    cases s with
    | nil =>
      rw [repl_nil]
      exact ⟨hasSub_nil hq, fun w q2 _ hne _ => startsWith_nil_right hne⟩
    | cons c t =>
      cases p with
      | nil =>
        rw [repl_nil_pat]
        rcases hyp with rfl | h
        · exact absurd rfl hq
        · exact ⟨h, fun w q2 _ _ hsw => hsw⟩
      | cons ph pt =>
        by_cases G : startsWith (ph :: pt) (c :: t) = true
        · rw [repl_pos (by simp) G]
          have hlen : (List.drop (ph :: pt).length (c :: t)).length ≤ n := by
            simp only [List.length_drop, List.length_cons]
            simp only [List.length_cons] at hs
            omega
          have hyp2 : q = ph :: pt ∨
              hasSub q (List.drop (ph :: pt).length (c :: t)) = false := by
            rcases hyp with rfl | h
            · exact Or.inl rfl
            · right
              cases hh : hasSub q (List.drop (ph :: pt).length (c :: t)) with
              | false => rfl
              | true => exact absurd (hasSub_drop_le hh) (by simp [h])
          obtain ⟨ihA, ihB⟩ := ih _ hlen hyp2
          constructor
          · cases hh : hasSub q (r ++ repl (ph :: pt) r (List.drop (ph :: pt).length (c :: t))) with
            | false => rfl
            | true =>
              rcases hasSub_append_split hh with h1 | h1 |
                ⟨q1, q2, hsplit, hne1, hne2, hend, hsw2⟩
              · exact absurd h1 (by simp [D1])
              · exact absurd (h1.symm.trans ihA) (by simp)
              · exact absurd hend (by simp [D2 q1 q2 hsplit hne1 hne2])
          · intro w q2 hsplit hne _
            cases hh : startsWith q2 (r ++ repl (ph :: pt) r (List.drop (ph :: pt).length (c :: t))) with
            | false => rfl
            | true =>
              rcases startsWith_append_split hh with h1 | ⟨q3, hq3, _⟩
              · exact absurd h1 (by simp [D3 w q2 hsplit hne])
              · have hocc : hasSub r q = true :=
                  (hasSub_iff _ _).mpr ⟨w, q3, by rw [hsplit, hq3]; simp⟩
                exact absurd hocc (by simp [D4])
        · have G2 : startsWith (ph :: pt) (c :: t) = false := by simpa using G
          rw [repl_neg (by simp) G2]
          have ht : t.length ≤ n := by
            simp only [List.length_cons] at hs
            omega
          have hyp2 : q = ph :: pt ∨ hasSub q t = false := by
            rcases hyp with rfl | h
            · exact Or.inl rfl
            · right
              simp only [hasSub, Bool.or_eq_false_iff] at h
              exact h.2
          obtain ⟨ihA, ihB⟩ := ih t ht hyp2
          have hq0 : startsWith q (c :: t) = false := by
            rcases hyp with rfl | h
            · exact G2
            · simp only [hasSub, Bool.or_eq_false_iff] at h
              exact h.1
          constructor
          · simp only [hasSub, Bool.or_eq_false_iff]
            refine ⟨?_, ihA⟩
            cases q with
            | nil => exact absurd rfl hq
            | cons d q3 =>
              by_cases hdc : d = c
              · subst hdc
                have hq3ne : q3 ≠ [] := by
                  intro h3
                  subst h3
                  simp [startsWith] at hq0
                have hswq3 : startsWith q3 t = false := by
                  simpa [startsWith] using hq0
                have hres := ihB [d] q3 rfl hq3ne hswq3
                simp [startsWith, hres]
              · simp [startsWith, hdc]
          · intro w q2 hsplit hne hsw
            cases q2 with
            | nil => exact absurd rfl hne
            | cons d q3 =>
              by_cases hdc : d = c
              · subst hdc
                have hq3ne : q3 ≠ [] := by
                  intro h3
                  subst h3
                  simp [startsWith] at hsw
                have hswq3 : startsWith q3 t = false := by
                  simpa [startsWith] using hsw
                have hres := ihB (w ++ [d]) q3 (by rw [hsplit]; simp) hq3ne hswq3
                simp [startsWith, hres]
              · simp [startsWith, hdc]

/-- Preservation lemma: if the watched string `v` and the scanned pattern
`p` cannot overlap in any of the four possible ways, then every occurrence
of `v` in the input survives the replacement scan. -/
theorem repl_pres (v p r : List Char)
    (E1 : hasSub p v = false) (E2 : hasSub v p = false)
    (E3 : ∀ v1 v2, v = v1 ++ v2 → v1 ≠ [] → endsWith v1 p = false)
    (E4 : ∀ w v2, v = w ++ v2 → v2 ≠ [] → startsWith v2 p = false) :
    ∀ n s, s.length ≤ n → ∀ x y, s = x ++ (v ++ y) →
      ∃ a b, repl p r s = a ++ (v ++ b) := by
  intro n
  induction n with
  | zero =>
    intro s hs x y hxy
    have hnil : s = [] := List.length_eq_zero.mp (Nat.le_zero.mp hs)
    subst hnil
    have h2 := hxy.symm
    simp only [List.append_eq_nil] at h2
    refine ⟨[], [], ?_⟩
    rw [repl_nil, h2.2.1]
    simp
  | succ n ih =>
    intro s hs x y hxy
    cases p with
    | nil => exact ⟨x, y, by rw [repl_nil_pat]; exact hxy⟩
    | cons ph pt =>
      cases x with
      | nil =>
        have hskip : ∀ i, i < v.length → startsWith (ph :: pt) (v.drop i ++ y) = false := by
          intro i hi
          cases hh : startsWith (ph :: pt) (v.drop i ++ y) with
          | false => rfl
          | true =>
            rcases startsWith_append_split hh with h1 | ⟨p2, hp2, _⟩
            · obtain ⟨u, hu⟩ := (startsWith_iff _ _).mp h1
              have hocc : hasSub (ph :: pt) v = true := by
                refine (hasSub_iff _ _).mpr ⟨v.take i, u, ?_⟩
                conv_lhs => rw [← List.take_append_drop i v]
                rw [hu]
                simp
              exact absurd hocc (by simp [E1])
            · have hpre : startsWith (v.drop i) (ph :: pt) = true := by
                rw [hp2]
                exact startsWith_append_self _ _
              have hvd : v = v.take i ++ v.drop i := (List.take_append_drop i v).symm
              have hne : v.drop i ≠ [] := by
                intro hcon
                rw [List.drop_eq_nil_iff] at hcon
                omega
              exact absurd hpre (by simp [E4 (v.take i) (v.drop i) hvd hne])
        simp only [List.nil_append] at hxy
        subst hxy
        rw [repl_skip v y hskip]
        exact ⟨[], repl (ph :: pt) r y, by simp⟩
      | cons c x2 =>
        subst hxy
        by_cases G : startsWith (ph :: pt) ((c :: x2) ++ (v ++ y)) = true
        · rcases startsWith_append_split G with h1 | ⟨p2, hp2, hsw2⟩
          · -- the pattern occurrence lies inside x
            obtain ⟨x3, hx3⟩ := (startsWith_iff _ _).mp h1
            have G2 : startsWith (ph :: pt) (c :: (x2 ++ (v ++ y))) = true := by
              simpa using G
            rw [show (c :: x2) ++ (v ++ y) = c :: (x2 ++ (v ++ y)) from rfl,
              repl_pos (by simp) G2]
            have hdrop : List.drop (ph :: pt).length (c :: (x2 ++ (v ++ y))) =
                x3 ++ (v ++ y) := by
              have : c :: (x2 ++ (v ++ y)) = (ph :: pt) ++ (x3 ++ (v ++ y)) := by
                rw [show ((ph :: pt) : List Char) ++ (x3 ++ (v ++ y)) =
                  ((ph :: pt) ++ x3) ++ (v ++ y) from by simp, ← hx3]
                simp
              rw [this, List.drop_left]
            rw [hdrop]
            have hlen : (x3 ++ (v ++ y)).length ≤ n := by
              have h5 := congrArg List.length hx3
              simp only [List.length_cons, List.length_append] at hs h5 ⊢
              omega
            obtain ⟨a, b, hab⟩ := ih (x3 ++ (v ++ y)) hlen x3 y rfl
            exact ⟨r ++ a, b, by rw [hab]; simp⟩
          · -- the pattern starts in x and would have to cross into v
            cases p2 with
            | nil =>
              -- pattern equals x exactly
              have hx3 : c :: x2 = (ph :: pt) ++ [] := by rw [hp2]; simp
              have G2 : startsWith (ph :: pt) (c :: (x2 ++ (v ++ y))) = true := by
                simpa using G
              rw [show (c :: x2) ++ (v ++ y) = c :: (x2 ++ (v ++ y)) from rfl,
                repl_pos (by simp) G2]
              have hdrop : List.drop (ph :: pt).length (c :: (x2 ++ (v ++ y))) = v ++ y := by
                have : c :: (x2 ++ (v ++ y)) = (ph :: pt) ++ (v ++ y) := by
                  conv_lhs => rw [show c :: (x2 ++ (v ++ y)) = (c :: x2) ++ (v ++ y) from rfl,
                    hx3]
                  simp
                rw [this, List.drop_left]
              rw [hdrop]
              have hlen : (v ++ y).length ≤ n := by
                simp only [List.length_cons, List.length_append] at hs ⊢
                omega
              obtain ⟨a, b, hab⟩ := ih (v ++ y) hlen [] y (by simp)
              exact ⟨r ++ a, b, by rw [hab]; simp⟩
            | cons e p3 =>
              exfalso
              rcases startsWith_append_split hsw2 with h3 | ⟨p4, hp4, _⟩
              · obtain ⟨u, hu⟩ := (startsWith_iff _ _).mp h3
                have hend : endsWith (e :: p3) (ph :: pt) = true :=
                  (endsWith_iff _ _).mpr ⟨c :: x2, hp2⟩
                exact absurd hend (by simp [E3 (e :: p3) u hu (by simp)])
              · have hocc : hasSub v (ph :: pt) = true :=
                  (hasSub_iff _ _).mpr ⟨c :: x2, p4, by rw [hp2, hp4]; simp⟩
                exact absurd hocc (by simp [E2])
        · have G2 : startsWith (ph :: pt) (c :: (x2 ++ (v ++ y))) = false := by
            simpa using G
          rw [show (c :: x2) ++ (v ++ y) = c :: (x2 ++ (v ++ y)) from rfl,
            repl_neg (by simp) G2]
          have hlen : (x2 ++ (v ++ y)).length ≤ n := by
            simp only [List.length_cons, List.length_append] at hs ⊢
            omega
          obtain ⟨a, b, hab⟩ := ih (x2 ++ (v ++ y)) hlen x2 y rfl
          exact ⟨c :: a, b, by rw [hab]; simp⟩

/-- The five deprecated action references, exactly as in `CODEQL_UPDATES`
of `src/migrator.py` (the mapping keys, in table order). -/
def codeqlKey1 : List Char := "uses: github/codeql-action/init@v2".data

def codeqlKey2 : List Char := "uses: github/codeql-action/analyze@v2".data

def codeqlKey3 : List Char := "uses: github/codeql-action/autobuild@v2".data

def codeqlKey4 : List Char := "uses: github/codeql-action/upload-sarif@v2".data

def codeqlKey5 : List Char := "uses: github/codeql-action@v2".data

/-- The five replacement action references (the mapping values). -/
def codeqlVal1 : List Char := "uses: github/codeql-action/init@v3".data

def codeqlVal2 : List Char := "uses: github/codeql-action/analyze@v3".data

def codeqlVal3 : List Char := "uses: github/codeql-action/autobuild@v3".data

def codeqlVal4 : List Char := "uses: github/codeql-action/upload-sarif@v3".data

def codeqlVal5 : List Char := "uses: github/codeql-action@v3".data

/-- The fixed substitution table `CODEQL_UPDATES` of `src/migrator.py`,
as an association list in the dictionary's insertion order. -/
def CODEQL_UPDATES : List (List Char × List Char) :=
  [(codeqlKey1, codeqlVal1), (codeqlKey2, codeqlVal2), (codeqlKey3, codeqlVal3),
    (codeqlKey4, codeqlVal4), (codeqlKey5, codeqlVal5)]

/-- Modelled from the spec: the per-file substitution step of
`find_and_update_workflows` (not present under `src/`) — "apply every
entry of the fixed substitution table in table order" by exact-literal
match-and-replace. -/
def applyUpdates (s : List Char) : List Char :=
  CODEQL_UPDATES.foldl (fun acc kv => repl kv.1 kv.2 acc) s

/-- Decidable separation conditions between a watched pattern `q` and a
replacement string `r`, sufficient for `repl_free_aux`. -/
def goodPairB (q r : List Char) : Bool :=
  !(hasSub q r) &&
  ((List.range q.length).all fun j => j == 0 || !(endsWith (q.take j) r)) &&
  ((List.range q.length).all fun j => !(startsWith (q.drop j) r)) &&
  !(hasSub r q)

/-- Decidable non-overlap conditions between a watched string `v` and a
scanned pattern `p`, sufficient for `repl_pres`. -/
def sepPairB (v p : List Char) : Bool :=
  !(hasSub p v) && !(hasSub v p) &&
  ((List.range v.length).all fun j => j == 0 || !(endsWith (v.take j) p)) &&
  ((List.range v.length).all fun j => !(startsWith (v.drop j) p))

theorem take_of_split {q q1 q2 : List Char} (h : q = q1 ++ q2) : q.take q1.length = q1 := by
  subst h
  exact List.take_left q1 q2

theorem drop_of_split {q w q2 : List Char} (h : q = w ++ q2) : q.drop w.length = q2 := by
  subst h
  exact List.drop_left w q2

theorem length_lt_of_split_left {q q1 q2 : List Char} (h : q = q1 ++ q2) (h2 : q2 ≠ []) :
    q1.length < q.length := by
  subst h
  have : 0 < q2.length := List.length_pos.mpr h2
  simp only [List.length_append]
  omega

/-- `repl_free_aux` packaged over the decidable conditions. -/
theorem repl_free_pair {q p r : List Char} (hq : q ≠ []) (hgood : goodPairB q r = true)
    (s : List Char) (hyp : q = p ∨ hasSub q s = false) :
    hasSub q (repl p r s) = false := by
  simp only [goodPairB, Bool.and_eq_true, Bool.not_eq_true', List.all_eq_true,
    List.mem_range, Bool.or_eq_true, beq_iff_eq] at hgood
  obtain ⟨⟨⟨hD1, hD2⟩, hD3⟩, hD4⟩ := hgood
  refine (repl_free_aux q p r hq hD1 ?_ ?_ hD4 s.length s le_rfl hyp).1
  · intro q1 q2 hsplit hne1 hne2
    have hj := hD2 q1.length (length_lt_of_split_left hsplit hne2)
    rcases hj with hj | hj
    · exact absurd (List.length_eq_zero.mp hj) hne1
    · rwa [take_of_split hsplit] at hj
  · intro w q2 hsplit hne2
    have hj := hD3 w.length (length_lt_of_split_left hsplit hne2)
    rwa [drop_of_split hsplit] at hj

/-- `repl_pres` packaged over the decidable conditions. -/
theorem repl_pres_pair {v p r : List Char} (hsep : sepPairB v p = true)
    {s x y : List Char} (hxy : s = x ++ (v ++ y)) :
    ∃ a b, repl p r s = a ++ (v ++ b) := by
  simp only [sepPairB, Bool.and_eq_true, Bool.not_eq_true', List.all_eq_true,
    List.mem_range, Bool.or_eq_true, beq_iff_eq] at hsep
  obtain ⟨⟨⟨hE1, hE2⟩, hE3⟩, hE4⟩ := hsep
  refine repl_pres v p r hE1 hE2 ?_ ?_ s.length s le_rfl x y hxy
  · intro v1 v2 hsplit hne1
    cases v2 with
    | nil =>
      rw [List.append_nil] at hsplit
      subst hsplit
      cases hh : endsWith v p with
      | false => rfl
      | true =>
        obtain ⟨w, hw⟩ := (endsWith_iff _ _).mp hh
        have hocc : hasSub v p = true := (hasSub_iff _ _).mpr ⟨w, [], by rw [hw]; simp⟩
        exact absurd hocc (by simp [hE2])
    | cons e v3 =>
      have hj := hE3 v1.length (length_lt_of_split_left hsplit (by simp))
      rcases hj with hj | hj
      · exact absurd (List.length_eq_zero.mp hj) hne1
      · rwa [take_of_split hsplit] at hj
  · intro w v2 hsplit hne2
    have hj := hE4 w.length (length_lt_of_split_left hsplit hne2)
    rwa [drop_of_split hsplit] at hj

/-- The newer-version action reference used by the spec's exact-literal
example; it is not a key of the substitution table. -/
def initV4 : List Char := "uses: github/codeql-action/init@v4".data

theorem applyUpdates_eq (u : List Char) :
    applyUpdates u =
      repl codeqlKey5 codeqlVal5 (repl codeqlKey4 codeqlVal4 (repl codeqlKey3 codeqlVal3
        (repl codeqlKey2 codeqlVal2 (repl codeqlKey1 codeqlVal1 u)))) := rfl

/-- C2: the substitution defined by the fixed mapping table is idempotent:
applying all table entries twice yields exactly the same string as applying
them once, for every input string. -/
theorem codeql_substitution_idempotent (s : List Char) :
    applyUpdates (applyUpdates s) = applyUpdates s := by
  have f1a : hasSub codeqlKey1 (repl codeqlKey1 codeqlVal1 s) = false :=
    repl_free_pair (by decide) (by decide) _ (Or.inl rfl)
  have f1b : hasSub codeqlKey1
      (repl codeqlKey2 codeqlVal2 (repl codeqlKey1 codeqlVal1 s)) = false :=
    repl_free_pair (by decide) (by decide) _ (Or.inr f1a)
  have f1c : hasSub codeqlKey1 (repl codeqlKey3 codeqlVal3
      (repl codeqlKey2 codeqlVal2 (repl codeqlKey1 codeqlVal1 s))) = false :=
    repl_free_pair (by decide) (by decide) _ (Or.inr f1b)
  have f1d : hasSub codeqlKey1 (repl codeqlKey4 codeqlVal4 (repl codeqlKey3 codeqlVal3
      (repl codeqlKey2 codeqlVal2 (repl codeqlKey1 codeqlVal1 s)))) = false :=
    repl_free_pair (by decide) (by decide) _ (Or.inr f1c)
  have f1e : hasSub codeqlKey1 (repl codeqlKey5 codeqlVal5 (repl codeqlKey4 codeqlVal4
      (repl codeqlKey3 codeqlVal3 (repl codeqlKey2 codeqlVal2
        (repl codeqlKey1 codeqlVal1 s))))) = false :=
    repl_free_pair (by decide) (by decide) _ (Or.inr f1d)
  have f2a : hasSub codeqlKey2
      (repl codeqlKey2 codeqlVal2 (repl codeqlKey1 codeqlVal1 s)) = false :=
    repl_free_pair (by decide) (by decide) _ (Or.inl rfl)
  have f2b : hasSub codeqlKey2 (repl codeqlKey3 codeqlVal3
      (repl codeqlKey2 codeqlVal2 (repl codeqlKey1 codeqlVal1 s))) = false :=
    repl_free_pair (by decide) (by decide) _ (Or.inr f2a)
  have f2c : hasSub codeqlKey2 (repl codeqlKey4 codeqlVal4 (repl codeqlKey3 codeqlVal3
      (repl codeqlKey2 codeqlVal2 (repl codeqlKey1 codeqlVal1 s)))) = false :=
    repl_free_pair (by decide) (by decide) _ (Or.inr f2b)
  have f2d : hasSub codeqlKey2 (repl codeqlKey5 codeqlVal5 (repl codeqlKey4 codeqlVal4
      (repl codeqlKey3 codeqlVal3 (repl codeqlKey2 codeqlVal2
        (repl codeqlKey1 codeqlVal1 s))))) = false :=
    repl_free_pair (by decide) (by decide) _ (Or.inr f2c)
  have f3a : hasSub codeqlKey3 (repl codeqlKey3 codeqlVal3
      (repl codeqlKey2 codeqlVal2 (repl codeqlKey1 codeqlVal1 s))) = false :=
    repl_free_pair (by decide) (by decide) _ (Or.inl rfl)
  have f3b : hasSub codeqlKey3 (repl codeqlKey4 codeqlVal4 (repl codeqlKey3 codeqlVal3
      (repl codeqlKey2 codeqlVal2 (repl codeqlKey1 codeqlVal1 s)))) = false :=
    repl_free_pair (by decide) (by decide) _ (Or.inr f3a)
  have f3c : hasSub codeqlKey3 (repl codeqlKey5 codeqlVal5 (repl codeqlKey4 codeqlVal4
      (repl codeqlKey3 codeqlVal3 (repl codeqlKey2 codeqlVal2
        (repl codeqlKey1 codeqlVal1 s))))) = false :=
    repl_free_pair (by decide) (by decide) _ (Or.inr f3b)
  have f4a : hasSub codeqlKey4 (repl codeqlKey4 codeqlVal4 (repl codeqlKey3 codeqlVal3
      (repl codeqlKey2 codeqlVal2 (repl codeqlKey1 codeqlVal1 s)))) = false :=
    repl_free_pair (by decide) (by decide) _ (Or.inl rfl)
  have f4b : hasSub codeqlKey4 (repl codeqlKey5 codeqlVal5 (repl codeqlKey4 codeqlVal4
      (repl codeqlKey3 codeqlVal3 (repl codeqlKey2 codeqlVal2
        (repl codeqlKey1 codeqlVal1 s))))) = false :=
    repl_free_pair (by decide) (by decide) _ (Or.inr f4a)
  have f5a : hasSub codeqlKey5 (repl codeqlKey5 codeqlVal5 (repl codeqlKey4 codeqlVal4
      (repl codeqlKey3 codeqlVal3 (repl codeqlKey2 codeqlVal2
        (repl codeqlKey1 codeqlVal1 s))))) = false :=
    repl_free_pair (by decide) (by decide) _ (Or.inl rfl)
  have g1 : hasSub codeqlKey1 (applyUpdates s) = false := by
    rw [applyUpdates_eq s]; exact f1e
  have g2 : hasSub codeqlKey2 (applyUpdates s) = false := by
    rw [applyUpdates_eq s]; exact f2d
  have g3 : hasSub codeqlKey3 (applyUpdates s) = false := by
    rw [applyUpdates_eq s]; exact f3c
  have g4 : hasSub codeqlKey4 (applyUpdates s) = false := by
    rw [applyUpdates_eq s]; exact f4b
  have g5 : hasSub codeqlKey5 (applyUpdates s) = false := by
    rw [applyUpdates_eq s]; exact f5a
  rw [applyUpdates_eq (applyUpdates s), repl_of_hasSub_false g1, repl_of_hasSub_false g2,
    repl_of_hasSub_false g3, repl_of_hasSub_false g4, repl_of_hasSub_false g5]

/-- C1 counterexample: the claim "content containing
`uses: github/codeql-action/init@v4` is returned unchanged, for every input
string" fails on the concrete input obtained by concatenating the old
`init@v2` literal with the `init@v4` literal: that content contains the
`init@v4` literal yet the substitution changes it (the `init@v2` part is
rewritten). -/
theorem codeql_substitution_v4_counterexample :
    hasSub initV4 (codeqlKey1 ++ initV4) = true ∧
      applyUpdates (codeqlKey1 ++ initV4) ≠ codeqlKey1 ++ initV4 := by
  constructor
  · decide
  · decide

/-- C1 (amended): applying the fixed substitution table to file content
replaces exact literal occurrences and nothing else: content containing
`uses: github/codeql-action/init@v2` maps to content containing
`uses: github/codeql-action/init@v3` in its place, and content containing
`uses: github/codeql-action/init@v4` while containing none of the table's
old-version literals is returned unchanged, for every input string. -/
theorem codeql_substitution_exact_literal (s : List Char) :
    (hasSub codeqlKey1 s = true → hasSub codeqlVal1 (applyUpdates s) = true) ∧
    (hasSub initV4 s = true →
      (∀ kv ∈ CODEQL_UPDATES, hasSub kv.1 s = false) → applyUpdates s = s) := by
  constructor
  · intro h
    obtain ⟨a, b, hab⟩ := repl_intro (r := codeqlVal1) (by decide) h
    obtain ⟨a2, b2, hab2⟩ := repl_pres_pair (v := codeqlVal1) (p := codeqlKey2)
      (r := codeqlVal2) (by decide) (s := repl codeqlKey1 codeqlVal1 s) (x := a) (y := b)
      (by rw [hab]; simp)
    obtain ⟨a3, b3, hab3⟩ := repl_pres_pair (v := codeqlVal1) (p := codeqlKey3)
      (r := codeqlVal3) (by decide) hab2
    obtain ⟨a4, b4, hab4⟩ := repl_pres_pair (v := codeqlVal1) (p := codeqlKey4)
      (r := codeqlVal4) (by decide) hab3
    obtain ⟨a5, b5, hab5⟩ := repl_pres_pair (v := codeqlVal1) (p := codeqlKey5)
      (r := codeqlVal5) (by decide) hab4
    rw [applyUpdates_eq s, hab5]
    exact (hasSub_iff _ _).mpr ⟨a5, b5, by simp⟩
  · intro _ hfree
    have m1 : hasSub codeqlKey1 s = false :=
      hfree (codeqlKey1, codeqlVal1) (by simp [CODEQL_UPDATES])
    have m2 : hasSub codeqlKey2 s = false :=
      hfree (codeqlKey2, codeqlVal2) (by simp [CODEQL_UPDATES])
    have m3 : hasSub codeqlKey3 s = false :=
      hfree (codeqlKey3, codeqlVal3) (by simp [CODEQL_UPDATES])
    have m4 : hasSub codeqlKey4 s = false :=
      hfree (codeqlKey4, codeqlVal4) (by simp [CODEQL_UPDATES])
    have m5 : hasSub codeqlKey5 s = false :=
      hfree (codeqlKey5, codeqlVal5) (by simp [CODEQL_UPDATES])
    rw [applyUpdates_eq s, repl_of_hasSub_false m1, repl_of_hasSub_false m2,
      repl_of_hasSub_false m3, repl_of_hasSub_false m4, repl_of_hasSub_false m5]

/-- Witness for the amended C1 theorem at concrete inputs: content holding
the old `init@v2` literal yields content holding the `init@v3` literal, and
the pure `init@v4` literal is a fixed point. -/
theorem codeql_substitution_exact_literal_witness :
    hasSub codeqlVal1 (applyUpdates (codeqlKey1 ++ initV4)) = true ∧
      applyUpdates initV4 = initV4 :=
  ⟨(codeql_substitution_exact_literal (codeqlKey1 ++ initV4)).1 (by decide),
   (codeql_substitution_exact_literal initV4).2 (by decide) (by decide)⟩

/-- `MAX_RETRIES` from `src/migrator.py`. -/
def MAX_RETRIES : Nat := 5

/-- `RETRY_DELAY` (the base backoff interval, in seconds) from
`src/migrator.py`. -/
def RETRY_DELAY : Nat := 5

/-- Outcome of one invocation of a function wrapped by
`retry_with_backoff`: a normal return, a retryable exception
(`requests.exceptions.RequestException` or `GitHubAPIError`), or any
other exception, which the decorator does not catch. -/
inductive CallOutcome (α : Type) where
  | ok (v : α)
  | transient (e : String)
  | fatal (e : String)

/-- Result of the whole wrapped call: a returned value, a propagated
exception, or the `return None` after the loop (dead code when
`MAX_RETRIES` is positive). -/
inductive RunOutcome (α : Type) where
  | ok (v : α)
  | exn (e : String)
  | noneResult
deriving DecidableEq

/-- The retry loop of `retry_with_backoff` in `src/migrator.py`, from a
given attempt index. `f n` is the outcome of the wrapped function on
attempt `n` (0-based). Returns the final outcome, the number of attempts
made, and the list of sleep delays in order. -/
def retry_loop {α : Type} (f : Nat → CallOutcome α) (attempt : Nat) :
    RunOutcome α × Nat × List Nat :=
  if _h : attempt < MAX_RETRIES then
    match f attempt with
    | .ok v => (.ok v, 1, [])
    | .fatal e => (.exn e, 1, [])
    | .transient e =>
      if attempt = MAX_RETRIES - 1 then
        (.exn ("Failed after " ++ toString MAX_RETRIES ++ " attempts: " ++ e), 1, [])
      else
        let rest := retry_loop f (attempt + 1)
        (rest.1, rest.2.1 + 1, RETRY_DELAY * 2 ^ attempt :: rest.2.2)
  else (.noneResult, 0, [])
  termination_by MAX_RETRIES - attempt
  decreasing_by omega

/-- `retry_with_backoff` of `src/migrator.py`: run the wrapped function
for `attempt in range(MAX_RETRIES)`, returning its value on success,
re-raising a non-retryable exception at once, sleeping
`RETRY_DELAY * 2 ** attempt` between retryable failures, and raising
`GitHubAPIError` when the last attempt fails with a retryable error. -/
def retry_with_backoff {α : Type} (f : Nat → CallOutcome α) :
    RunOutcome α × Nat × List Nat :=
  retry_loop f 0

theorem retry_loop_spec {α : Type} (f : Nat → CallOutcome α) (es : Nat → String) :
    ∀ k a, a + k < MAX_RETRIES →
      (∀ j, j < k → f (a + j) = .transient (es (a + j))) →
      ∀ v, f (a + k) = .ok v →
      retry_loop f a =
        (.ok v, k + 1, (List.range k).map fun j => RETRY_DELAY * 2 ^ (a + j)) := by
  intro k
  induction k with
  | zero =>
    intro a ha _ v hv
    rw [retry_loop, dif_pos (by omega)]
    simp only [Nat.add_zero] at hv
    rw [hv]
    simp
  | succ k ih =>
    intro a ha hfail v hv
    rw [retry_loop, dif_pos (by omega)]
    have h0 : f a = .transient (es a) := by
      have := hfail 0 (by omega)
      simpa using this
    rw [h0]
    have hne : ¬ a = MAX_RETRIES - 1 := by
      simp only [MAX_RETRIES] at ha ⊢
      omega
    simp only [if_neg hne]
    have hrest : retry_loop f (a + 1) =
        (.ok v, k + 1, (List.range k).map fun j => RETRY_DELAY * 2 ^ (a + 1 + j)) := by
      refine ih (a + 1) (by omega) ?_ v ?_
      · intro j hj
        have := hfail (j + 1) (by omega)
        rwa [show a + (j + 1) = a + 1 + j by omega] at this
      · rwa [show a + 1 + k = a + (k + 1) by omega]
    rw [hrest]
    refine Prod.ext rfl (Prod.ext rfl ?_)
    show RETRY_DELAY * 2 ^ a :: ((List.range k).map fun j => RETRY_DELAY * 2 ^ (a + 1 + j)) =
      (List.range (k + 1)).map fun j => RETRY_DELAY * 2 ^ (a + j)
    rw [List.range_succ_eq_map, List.map_cons, List.map_map]
    refine congrArg₂ _ (by simp) ?_
    refine List.map_congr_left ?_
    intro j _
    simp only [Function.comp_apply]
    have harith : a + 1 + j = a + j.succ := by omega
    rw [harith]

/-- C3: for every function wrapped by the retry decorator and every
failure sequence of `k` transient failures followed by a success with
`k` below the retry limit, the wrapped call returns the successful
result, makes exactly `k + 1` attempts, and sleeps
`RETRY_DELAY * 2 ^ attempt` before each retry. -/
theorem retry_transient_then_success {α : Type} (f : Nat → CallOutcome α)
    (es : Nat → String) (k : Nat) (v : α)
    (hk : k < MAX_RETRIES)
    (hfail : ∀ j, j < k → f j = .transient (es j))
    (hv : f k = .ok v) :
    retry_with_backoff f =
      (.ok v, k + 1, (List.range k).map fun j => RETRY_DELAY * 2 ^ j) := by
  have h := retry_loop_spec f es k 0 (by omega)
    (fun j hj => by simpa using hfail j hj) v (by simpa using hv)
  rw [retry_with_backoff, h]
  simp

/-- Witness for C3: a function failing transiently twice and then
returning 7 yields the value 7 after 3 attempts with delays 5 s and
10 s. -/
theorem retry_transient_then_success_witness :
    retry_with_backoff (fun n => if n < 2 then .transient "boom" else .ok (7 : Nat)) =
      (.ok 7, 3, [5, 10]) := by
  have h := retry_transient_then_success
    (fun n => if n < 2 then .transient "boom" else .ok (7 : Nat))
    (fun _ => "boom") 2 7 (by decide)
    (fun j hj => by interval_cases j <;> rfl) (by rfl)
  rw [h]
  rfl

/-- C4: a function raising a non-retryable error on its first attempt
makes exactly one attempt, sleeps never, and the error propagates
unchanged to the caller. -/
theorem retry_fatal_no_retry {α : Type} (f : Nat → CallOutcome α) (e : String)
    (h : f 0 = .fatal e) :
    retry_with_backoff f = (.exn e, 1, []) := by
  rw [retry_with_backoff, retry_loop, dif_pos (by decide), h]

/-- Witness for C4: a function raising a permission error immediately
surfaces it after a single attempt with no delays. -/
theorem retry_fatal_no_retry_witness :
    retry_with_backoff (fun _ => (CallOutcome.fatal "permission denied" : CallOutcome Nat)) =
      (.exn "permission denied", 1, []) :=
  retry_fatal_no_retry (fun _ => .fatal "permission denied") "permission denied" rfl

/-- The command-line options of `src/migrator.py` that `process_repository`
reads (`args.dry_run`, `args.branch_name`, `args.skip_cleanup`,
`args.force`). -/
structure Args where
  dry_run : Bool
  branch_name : String
  skip_cleanup : Bool
  force : Bool
deriving DecidableEq

/-- The fields of one search result that `process_repository` reads:
`repo["repository"]["owner"]["login"]`, `repo["repository"]["name"]`,
`repo["repository"]["clone_url"]`. -/
structure RepoInfo where
  owner : String
  name : String
  clone_url : String
deriving DecidableEq

/-- One external call performed by the pipeline, in execution order.
Cloning, workflow editing and cleanup touch the filesystem; opening a
pull request mutates the remote. -/
inductive StageCall where
  | cloneCall
  | updateCall
  | promptCall
  | prCall
  | cleanupCall
deriving DecidableEq

/-- Modelled from the spec: the outcomes of the pipeline's callees, which
are not defined under `src/` — `clone_repo` (§4.2: ok or a fatal process
error), `find_and_update_workflows` (§4.3: whether any file changed, or an
error), `prompt_user` (§4.5: an interactive yes/no), `create_pull_request`
(§4.1: a pull-request URL, `None` on failure, or an error), and
`cleanup_resources` (§7: ok or a `CleanupError`). `process_repository`
itself is embedded from `src/migrator.py`; this structure only closes over
its calls. -/
structure Env where
  cloneOutcome : Except String Unit
  updateOutcome : Except String Bool
  promptAnswer : Bool
  prOutcome : Except String (Option String)
  cleanupOutcome : Except String Unit

/-- The per-repository outcome record built by `process_repository`:
repository identifier, success flag, ordered actions taken, error
strings, and the pull-request URL if created. -/
structure ResultRecord where
  repository : String
  success : Bool
  actions_taken : List String
  errors : List String
  pr_url : Option String
deriving DecidableEq

/-- The try block of `process_repository` in `src/migrator.py`: clone,
workflow update, optional prompt, pull-request creation, with the
generic exception handler converting a raised error into an error entry.
Returns the updated outcome record and the trace of external calls. -/
def process_try (env : Env) (repo : RepoInfo) (args : Args) (base : ResultRecord) :
    ResultRecord × List StageCall :=
  match env.cloneOutcome with
      | .error e =>
        ({ base with errors := base.errors ++
            ["Error processing " ++ repo.name ++ ": " ++ e] }, [.cloneCall])
      | .ok _ =>
        let r1 := { base with actions_taken := base.actions_taken ++ ["cloned"] }
        match env.updateOutcome with
        | .error e =>
          ({ r1 with errors := r1.errors ++
              ["Error processing " ++ repo.name ++ ": " ++ e] }, [.cloneCall, .updateCall])
        | .ok true =>
          let r2 := { r1 with actions_taken := r1.actions_taken ++ ["workflows_updated"] }
          let promptTrace := if args.force then [] else [StageCall.promptCall]
          if args.force || env.promptAnswer then
            match env.prOutcome with
            | .error e =>
              ({ r2 with errors := r2.errors ++
                  ["Error processing " ++ repo.name ++ ": " ++ e] },
                [.cloneCall, .updateCall] ++ promptTrace ++ [.prCall])
            | .ok (some url) =>
              ({ r2 with
                  pr_url := some url
                  success := true
                  actions_taken := r2.actions_taken ++ ["pr_created"] },
                [.cloneCall, .updateCall] ++ promptTrace ++ [.prCall])
            | .ok none =>
              ({ r2 with errors := r2.errors ++ ["Failed to create PR"] },
                [.cloneCall, .updateCall] ++ promptTrace ++ [.prCall])
          else (r2, [.cloneCall, .updateCall] ++ promptTrace)
        | .ok false =>
          ({ r1 with actions_taken := r1.actions_taken ++ ["no_updates_needed"] },
            [.cloneCall, .updateCall])

/-- `process_repository` of `src/migrator.py`: the dry-run early return,
the try block above, and the finally block that attempts cleanup unless
suppressed, recording a `CleanupError` without touching the success flag. -/
def process_repository (env : Env) (repo : RepoInfo) (args : Args) :
    ResultRecord × List StageCall :=
  let base : ResultRecord :=
    { repository := repo.owner ++ "/" ++ repo.name
      success := false
      actions_taken := []
      errors := []
      pr_url := none }
  if args.dry_run then
    ({ base with success := true, actions_taken := base.actions_taken ++ ["dry_run"] }, [])
  else
    let afterTry := process_try env repo args base
    if args.skip_cleanup then afterTry
    else
      match env.cleanupOutcome with
      | .ok _ =>
        ({ afterTry.1 with actions_taken := afterTry.1.actions_taken ++ ["cleanup_completed"] },
          afterTry.2 ++ [.cleanupCall])
      | .error e =>
        ({ afterTry.1 with errors := afterTry.1.errors ++ ["Cleanup error: " ++ e] },
          afterTry.2 ++ [.cleanupCall])

/-- C5: with dry-run mode enabled, `process_repository` performs no
external calls at all — in particular no filesystem writes and no remote
mutations — and returns a successful outcome record whose only action is
`"dry_run"`, with no errors and no pull-request URL. -/
theorem process_repository_dry_run (env : Env) (repo : RepoInfo) (args : Args)
    (h : args.dry_run = true) :
    process_repository env repo args =
      ({ repository := repo.owner ++ "/" ++ repo.name
         success := true
         actions_taken := ["dry_run"]
         errors := []
         pr_url := none }, []) := by
  simp [process_repository, h]

/-- Witness for C5 at a concrete environment and repository. -/
theorem process_repository_dry_run_witness :
    process_repository
      ⟨.ok (), .ok true, true, .ok (some "https://pr"), .ok ()⟩
      ⟨"octo", "repo", "https://clone"⟩
      ⟨true, "update-codeql-v3", false, false⟩ =
      ({ repository := "octo/repo"
         success := true
         actions_taken := ["dry_run"]
         errors := []
         pr_url := none }, []) :=
  process_repository_dry_run _ _ _ rfl

/-- C6: for every non-dry-run repository with cleanup not suppressed,
cleanup is attempted whatever the pipeline did (the cleanup call is in
the trace for every environment, including ones where a stage raised),
a cleanup failure is recorded as an error, and the success flag is the
one already determined — it equals the flag obtained when cleanup
succeeds. -/
theorem process_repository_cleanup_always (env : Env) (repo : RepoInfo) (args : Args)
    (h1 : args.dry_run = false) (h2 : args.skip_cleanup = false) :
    StageCall.cleanupCall ∈ (process_repository env repo args).2 ∧
    (∀ e, env.cleanupOutcome = Except.error e →
      ("Cleanup error: " ++ e) ∈ (process_repository env repo args).1.errors) ∧
    (process_repository env repo args).1.success =
      (process_repository { env with cleanupOutcome := Except.ok () } repo args).1.success := by
  have htry : ∀ b, process_try { env with cleanupOutcome := Except.ok () } repo args b =
      process_try env repo args b := fun _ => rfl
  refine ⟨?_, ?_, ?_⟩
  · simp only [process_repository, h1, h2, Bool.false_eq_true, if_false]
    rcases hcl : env.cleanupOutcome with e | u <;> simp
  · intro e he
    simp only [process_repository, h1, h2, Bool.false_eq_true, if_false, he]
    simp
  · simp only [process_repository, h1, h2, Bool.false_eq_true, if_false, htry]
    rcases hcl : env.cleanupOutcome with e | u <;> rfl

/-- Witness for C6: a pipeline run whose cleanup fails still records the
cleanup attempt and the cleanup error. -/
theorem process_repository_cleanup_always_witness :
    StageCall.cleanupCall ∈
      (process_repository ⟨Except.ok (), Except.ok false, false, Except.ok none,
        Except.error "directory busy"⟩ ⟨"octo", "repo", "https://clone"⟩
        ⟨false, "update-codeql-v3", false, true⟩).2 ∧
    "Cleanup error: directory busy" ∈
      (process_repository ⟨Except.ok (), Except.ok false, false, Except.ok none,
        Except.error "directory busy"⟩ ⟨"octo", "repo", "https://clone"⟩
        ⟨false, "update-codeql-v3", false, true⟩).1.errors :=
  ⟨(process_repository_cleanup_always _ _ _ rfl rfl).1,
   (process_repository_cleanup_always _ _ _ rfl rfl).2.1 "directory busy" rfl⟩

/-- The report record built by `generate_migration_report` of
`src/migrator.py` (timestamp and file output aside): total repository
count, success count, failure count, and the per-repository details. -/
structure MigrationReport where
  total_repositories : Nat
  successful_migrations : Nat
  failed_migrations : Nat
  details : List ResultRecord
deriving DecidableEq

/-- `generate_migration_report` of `src/migrator.py`: counts records with
a truthy success flag and records without one. -/
def generate_migration_report (results : List ResultRecord) : MigrationReport :=
  { total_repositories := results.length
    successful_migrations := (results.filter fun r => r.success).length
    failed_migrations := (results.filter fun r => !r.success).length
    details := results }

/-- C9: for every non-dry-run repository whose workflow scan finds
nothing to update, `process_repository` returns an outcome record with
success false and action `"no_updates_needed"`, so the repository is
counted among the failed migrations of the generated report, even though
no error occurred. -/
theorem process_repository_no_updates_counts_failed (env : Env) (repo : RepoInfo)
    (args : Args) (h1 : args.dry_run = false)
    (h2 : env.cloneOutcome = Except.ok ())
    (h3 : env.updateOutcome = Except.ok false) :
    (process_repository env repo args).1.success = false ∧
    "no_updates_needed" ∈ (process_repository env repo args).1.actions_taken ∧
    ∀ rs1 rs2 : List ResultRecord,
      (generate_migration_report
          (rs1 ++ (process_repository env repo args).1 :: rs2)).failed_migrations =
        (generate_migration_report (rs1 ++ rs2)).failed_migrations + 1 := by
  have hrec : (process_repository env repo args).1.success = false ∧
      "no_updates_needed" ∈ (process_repository env repo args).1.actions_taken := by
    cases hsk : args.skip_cleanup <;> rcases hcl : env.cleanupOutcome with e | u <;>
      simp [process_repository, process_try, h1, h2, h3, hsk, hcl]
  refine ⟨hrec.1, hrec.2, ?_⟩
  intro rs1 rs2
  simp [generate_migration_report, List.filter_append, List.filter_cons, hrec.1]
  omega

/-- Witness for C9 at a concrete environment, repository, and results
lists. -/
theorem process_repository_no_updates_counts_failed_witness :
    (process_repository ⟨Except.ok (), Except.ok false, true, Except.ok none, Except.ok ()⟩
      ⟨"octo", "repo", "https://clone"⟩ ⟨false, "update-codeql-v3", false, false⟩).1.success
        = false ∧
    "no_updates_needed" ∈
      (process_repository ⟨Except.ok (), Except.ok false, true, Except.ok none, Except.ok ()⟩
        ⟨"octo", "repo", "https://clone"⟩
        ⟨false, "update-codeql-v3", false, false⟩).1.actions_taken ∧
    (generate_migration_report
        ([] ++ (process_repository ⟨Except.ok (), Except.ok false, true, Except.ok none,
          Except.ok ()⟩ ⟨"octo", "repo", "https://clone"⟩
          ⟨false, "update-codeql-v3", false, false⟩).1 :: [])).failed_migrations =
      (generate_migration_report ([] ++ [])).failed_migrations + 1 :=
  let t := process_repository_no_updates_counts_failed _ _ _ rfl rfl rfl
  ⟨t.1, t.2.1, t.2.2 [] []⟩

/-- C10: for every outcome record returned by `process_repository`, a
present pull-request URL implies the success flag is set and
`"pr_created"` is among the actions taken. -/
theorem process_repository_pr_url_invariant (env : Env) (repo : RepoInfo) (args : Args)
    (h : (process_repository env repo args).1.pr_url ≠ none) :
    (process_repository env repo args).1.success = true ∧
    "pr_created" ∈ (process_repository env repo args).1.actions_taken := by
  obtain ⟨co, uo, pa, po, cl⟩ := env
  obtain ⟨dr, bn, sc, fo⟩ := args
  cases dr
  · rcases co with e1 | u1 <;> rcases uo with e2 | (_ | _) <;>
      rcases po with e3 | (_ | u3) <;> rcases cl with e4 | u4 <;>
      cases sc <;> cases fo <;> cases pa <;>
      simp_all [process_repository, process_try]
  · exfalso
    apply h
    simp [process_repository]

/-- Witness for C10: an environment whose pull-request creation returns a
URL yields a successful record listing `"pr_created"`. -/
theorem process_repository_pr_url_invariant_witness :
    (process_repository ⟨Except.ok (), Except.ok true, true,
      Except.ok (some "https://pr/1"), Except.ok ()⟩ ⟨"octo", "repo", "https://clone"⟩
      ⟨false, "update-codeql-v3", false, true⟩).1.success = true ∧
    "pr_created" ∈
      (process_repository ⟨Except.ok (), Except.ok true, true,
        Except.ok (some "https://pr/1"), Except.ok ()⟩ ⟨"octo", "repo", "https://clone"⟩
        ⟨false, "update-codeql-v3", false, true⟩).1.actions_taken :=
  process_repository_pr_url_invariant _ _ _ (by decide)

/-- A parsed YAML document as a Python value, as produced by
`yaml.safe_load`: `None`, booleans, integers, strings, lists, and
string-keyed mappings. -/
inductive PyVal where
  | null
  | bool (b : Bool)
  | int (n : Int)
  | str (s : String)
  | list (xs : List PyVal)
  | dict (entries : List (String × PyVal))

/-- Python truthiness (`if not yaml_content`). -/
def truthy : PyVal → Bool
  | .null => false
  | .bool b => b
  | .int n => decide (n ≠ 0)
  | .str s => !s.isEmpty
  | .list xs => !xs.isEmpty
  | .dict es => !es.isEmpty

mutual

/-- Python `repr` of a value (scalars, lists, and dicts with
single-quoted strings). -/
def pyRepr : PyVal → String
  | .null => "None"
  | .bool true => "True"
  | .bool false => "False"
  | .int n => toString n
  | .str s => "\x27" ++ s ++ "\x27"
  | .list xs => "[" ++ pyReprList xs ++ "]"
  | .dict es => "\x7b" ++ pyReprDict es ++ "\x7d"

/-- Comma-separated `repr` of list items. -/
def pyReprList : List PyVal → String
  | [] => ""
  | [x] => pyRepr x
  | x :: xs => pyRepr x ++ ", " ++ pyReprList xs

/-- Comma-separated `repr` of dict entries. -/
def pyReprDict : List (String × PyVal) → String
  | [] => ""
  | [e] => "\x27" ++ e.1 ++ "\x27: " ++ pyRepr e.2
  | e :: es => "\x27" ++ e.1 ++ "\x27: " ++ pyRepr e.2 ++ ", " ++ pyReprDict es

end

/-- Python `str()`: identity on strings, `repr` otherwise. -/
def pyStr : PyVal → String
  | .str s => s
  | v => pyRepr v

/-- Python `needle in hay` for strings. -/
def strContains (needle hay : String) : Bool := hasSub needle.data hay.data

/-- First binding of a key in a mapping (Python dicts have unique keys). -/
def dictLookup (k : String) (es : List (String × PyVal)) : Option PyVal :=
  (es.find? fun e => e.1 == k).map fun e => e.2

/-- Python `needle in v` for a string needle: substring test on strings,
membership on lists, key lookup on dicts; a `TypeError` otherwise. -/
def pyContainsStr (needle : String) : PyVal → Except String Bool
  | .str s => .ok (strContains needle s)
  | .list xs =>
    .ok (xs.any fun x => match x with | .str s => s == needle | _ => false)
  | .dict es => .ok (dictLookup needle es).isSome
  | _ => .error "TypeError: argument is not iterable"

/-- Python `v.get(k, d)`: defaulting lookup on dicts, `AttributeError`
otherwise. -/
def pyGet (v : PyVal) (k : String) (d : PyVal) : Except String PyVal :=
  match v with
  | .dict es => .ok ((dictLookup k es).getD d)
  | _ => .error "AttributeError: no attribute get"

/-- Python `v.values()`: the values of a dict, `AttributeError`
otherwise. -/
def pyValues : PyVal → Except String (List PyVal)
  | .dict es => .ok (es.map fun e => e.2)
  | _ => .error "AttributeError: no attribute values"

/-- Python `v[k]` for a string key. -/
def pyIndexStr (v : PyVal) (k : String) : Except String PyVal :=
  match v with
  | .dict es =>
    match dictLookup k es with
    | some x => .ok x
    | none => .error "KeyError"
  | _ => .error "TypeError: indices must be integers"

/-- Python `for x in v`: list items, characters of a string, keys of a
dict; a `TypeError` otherwise. -/
def pyIter : PyVal → Except String (List PyVal)
  | .list xs => .ok xs
  | .str s => .ok (s.data.map fun c => .str (String.mk [c]))
  | .dict es => .ok (es.map fun e => .str e.1)
  | _ => .error "TypeError: object is not iterable"

/-- The fields of `WORKFLOW_CONFIG` in `src/migrator.py`. -/
structure WorkflowConfig where
  supported_languages : List String
  default_queries : String
  query_suites : List String

/-- `WORKFLOW_CONFIG` of `src/migrator.py`. -/
def WORKFLOW_CONFIG : WorkflowConfig :=
  { supported_languages := ["cpp", "csharp", "go", "java", "javascript", "python", "ruby"]
    default_queries := "security-extended"
    query_suites := ["security-extended", "security-and-quality"] }

/-- The issue string appended for a CodeQL step without a recognized
language. -/
def langIssueMsg : String := "No supported languages specified in CodeQL configuration"

/-- The per-step check of `validate_workflow_file`: a dict step with a
`uses` field referencing `github/codeql-action` must mention a supported
language in the stringified `with` options, else one issue is produced.
Non-dict steps and steps without `uses` are skipped. -/
def stepIssue (step : PyVal) : Except String (List String) :=
  match step with
  | .dict es =>
    match dictLookup "uses" es with
    | none => .ok []
    | some u =>
      match pyContainsStr "github/codeql-action" u with
      | .error e => .error e
      | .ok false => .ok []
      | .ok true =>
        match pyGet (.dict es) "with" (.dict []) with
        | .error e => .error e
        | .ok w =>
          if WORKFLOW_CONFIG.supported_languages.any fun lang => strContains lang (pyStr w)
          then .ok []
          else .ok [langIssueMsg]
  | _ => .ok []

/-- The issues of a list of steps, in order. -/
def stepsIssues : List PyVal → Except String (List String)
  | [] => .ok []
  | st :: rest =>
    match stepIssue st with
    | .error e => .error e
    | .ok si =>
      match stepsIssues rest with
      | .error e => .error e
      | .ok more => .ok (si ++ more)

/-- The per-job loop body of `validate_workflow_file`: when the job has a
`steps` field, iterate its steps. -/
def jobIssues (job : PyVal) : Except String (List String) :=
  match pyContainsStr "steps" job with
  | .error e => .error e
  | .ok false => .ok []
  | .ok true =>
    match pyIndexStr job "steps" with
    | .error e => .error e
    | .ok stepsV =>
      match pyIter stepsV with
      | .error e => .error e
      | .ok steps => stepsIssues steps

/-- The issues of a list of jobs, in order. -/
def jobsIssues : List PyVal → Except String (List String)
  | [] => .ok []
  | j :: rest =>
    match jobIssues j with
    | .error e => .error e
    | .ok ji =>
      match jobsIssues rest with
      | .error e => .error e
      | .ok more => .ok (ji ++ more)

/-- `validate_workflow_file` of `src/migrator.py`, over the outcome of
parsing the content as structured data (`yaml.safe_load` is external; a
parse failure arrives as `.error`). The result is the returned pair, or
`.error` when the Python code would raise an exception other than
`yaml.YAMLError`. -/
def validate_workflow_file (parsed : Except String PyVal) :
    Except String (Bool × List String) :=
  match parsed with
  | .error e => .ok (false, ["Invalid YAML content: " ++ e])
  | .ok y =>
    if truthy y = false then .ok (false, ["Empty workflow file"])
    else
      match pyContainsStr "jobs" y with
      | .error e => .error e
      | .ok hasJobs =>
        let issues0 := if hasJobs then ([] : List String) else ["No jobs defined in workflow"]
        match pyGet y "jobs" (.dict []) with
        | .error e => .error e
        | .ok jobsV =>
          match pyValues jobsV with
          | .error e => .error e
          | .ok jobs =>
            match jobsIssues jobs with
            | .error e => .error e
            | .ok rest =>
              let issues := issues0 ++ rest
              .ok (issues.length == 0, issues)

/-- A step invokes the action under migration: it is a mapping whose
`uses` value is a string mentioning `github/codeql-action`. -/
def step_invokes_action (step : PyVal) : Bool :=
  match step with
  | .dict es =>
    match dictLookup "uses" es with
    | some (.str u) => strContains "github/codeql-action" u
    | _ => false
  | _ => false

/-- A step declares a recognized language option: some supported language
name occurs in the stringified `with` options (the check the validator
performs). -/
def step_declares_language (step : PyVal) : Bool :=
  match step with
  | .dict es =>
    WORKFLOW_CONFIG.supported_languages.any fun lang =>
      strContains lang (pyStr ((dictLookup "with" es).getD (.dict [])))
  | _ => false

/-- A step the validator must flag: it invokes the action under migration
and declares no recognized language option. -/
def step_flagged (step : PyVal) : Bool :=
  step_invokes_action step && !step_declares_language step

/-- Number of flagged steps of one job. -/
def job_flagged_count (job : PyVal) : Nat :=
  match job with
  | .dict jd =>
    match dictLookup "steps" jd with
    | some (.list steps) => (steps.filter step_flagged).length
    | _ => 0
  | _ => 0

/-- Number of flagged steps of a whole parsed workflow. -/
def flagged_steps_count (y : PyVal) : Nat :=
  match y with
  | .dict es =>
    match dictLookup "jobs" es with
    | some (.dict jes) => ((jes.map fun e => e.2).map job_flagged_count).sum
    | _ => 0
  | _ => 0

/-- Structural well-formedness of a step: a present `uses` value is a
string (so the containment test does not raise). -/
def wf_step (st : PyVal) : Bool :=
  match st with
  | .dict es =>
    match dictLookup "uses" es with
    | some (.str _) => true
    | some _ => false
    | none => true
  | _ => true

/-- Structural well-formedness of a job: a mapping whose `steps` value,
when present, is a list of well-formed steps. -/
def wf_job (job : PyVal) : Bool :=
  match job with
  | .dict jd =>
    match dictLookup "steps" jd with
    | some (.list steps) => steps.all wf_step
    | some _ => false
    | none => true
  | _ => false

/-- Structural well-formedness of a parsed workflow: a mapping whose
`jobs` value, when present, is a mapping of well-formed jobs. -/
def wf_content (y : PyVal) : Bool :=
  match y with
  | .dict es =>
    match dictLookup "jobs" es with
    | some (.dict jes) => (jes.map fun e => e.2).all wf_job
    | some _ => false
    | none => true
  | _ => false

theorem stepIssue_spec {st : PyVal} (h : wf_step st = true) :
    stepIssue st = .ok (if step_flagged st = true then [langIssueMsg] else []) := by
  cases st with
  | dict es =>
    simp only [wf_step] at h
    simp only [stepIssue]
    cases hu : dictLookup "uses" es with
    | none => simp [step_flagged, step_invokes_action, hu]
    | some u =>
      cases u with
      | str s =>
        simp only [pyContainsStr]
        cases hc : strContains "github/codeql-action" s with
        | false => simp [step_flagged, step_invokes_action, hu, hc]
        | true =>
          simp only [pyGet]
          cases hl : WORKFLOW_CONFIG.supported_languages.any fun lang =>
              strContains lang (pyStr ((dictLookup "with" es).getD (.dict []))) with
          | false =>
            simp [step_flagged, step_invokes_action, step_declares_language, hu, hc, hl]
          | true =>
            simp [step_flagged, step_invokes_action, step_declares_language, hu, hc, hl]
      | null => rw [hu] at h; simp at h
      | bool b => rw [hu] at h; simp at h
      | int n => rw [hu] at h; simp at h
      | list xs => rw [hu] at h; simp at h
      | dict fs => rw [hu] at h; simp at h
  | null => simp [stepIssue, step_flagged, step_invokes_action]
  | bool b => simp [stepIssue, step_flagged, step_invokes_action]
  | int n => simp [stepIssue, step_flagged, step_invokes_action]
  | str s => simp [stepIssue, step_flagged, step_invokes_action]
  | list xs => simp [stepIssue, step_flagged, step_invokes_action]

theorem stepsIssues_spec {steps : List PyVal} (h : steps.all wf_step = true) :
    stepsIssues steps =
      .ok (List.replicate (steps.filter step_flagged).length langIssueMsg) := by
  induction steps with
  | nil => simp [stepsIssues]
  | cons st rest ih =>
    simp only [List.all_cons, Bool.and_eq_true] at h
    rw [stepsIssues, stepIssue_spec h.1, ih h.2]
    cases hf : step_flagged st with
    | false => simp [List.filter_cons, hf]
    | true => simp [List.filter_cons, hf, List.replicate_succ]

theorem jobIssues_spec {job : PyVal} (h : wf_job job = true) :
    jobIssues job = .ok (List.replicate (job_flagged_count job) langIssueMsg) := by
  cases job with
  | dict jd =>
    simp only [wf_job] at h
    simp only [jobIssues, job_flagged_count, pyContainsStr]
    cases hs : dictLookup "steps" jd with
    | none => simp
    | some sv =>
      cases sv with
      | list steps =>
        rw [hs] at h
        simp only [Option.isSome_some, pyIndexStr, hs, pyIter]
        exact stepsIssues_spec h
      | null => rw [hs] at h; simp at h
      | bool b => rw [hs] at h; simp at h
      | int n => rw [hs] at h; simp at h
      | str s => rw [hs] at h; simp at h
      | dict fs => rw [hs] at h; simp at h
  | null => simp [wf_job] at h
  | bool b => simp [wf_job] at h
  | int n => simp [wf_job] at h
  | str s => simp [wf_job] at h
  | list xs => simp [wf_job] at h

theorem jobsIssues_spec {jobs : List PyVal} (h : jobs.all wf_job = true) :
    jobsIssues jobs =
      .ok (List.replicate (jobs.map job_flagged_count).sum langIssueMsg) := by
  induction jobs with
  | nil => simp [jobsIssues]
  | cons j rest ih =>
    simp only [List.all_cons, Bool.and_eq_true] at h
    rw [jobsIssues, jobIssues_spec h.1, ih h.2]
    simp only [List.map_cons, List.sum_cons, List.replicate_add]

/-- C7: for every successfully parsed, structurally well-formed workflow
content, the validator returns normally and its issue list contains the
missing-language issue exactly once per step that invokes the action
under migration and declares no recognized language option: a step that
declares one is not flagged, a step that declares none is flagged. -/
theorem validate_flags_exactly_unlanguaged_steps (y : PyVal)
    (hwf : wf_content y = true) :
    ∃ ok issues, validate_workflow_file (.ok y) = .ok (ok, issues) ∧
      issues.count langIssueMsg = flagged_steps_count y := by
  cases y with
  | dict es =>
    simp only [wf_content] at hwf
    by_cases he : es.isEmpty = true
    · refine ⟨false, ["Empty workflow file"], ?_, ?_⟩
      · simp [validate_workflow_file, truthy, he]
      · have hes : es = [] := by simpa [List.isEmpty_iff] using he
        subst hes
        decide
    · have ht : truthy (.dict es) = true := by simp [truthy, he]
      simp only [validate_workflow_file, ht]
      simp only [Bool.true_eq_false, if_false]
      simp only [pyContainsStr, pyGet]
      cases hj : dictLookup "jobs" es with
      | none =>
        simp only [Option.isSome_none, Option.getD, pyValues, jobsIssues]
        refine ⟨false, ["No jobs defined in workflow"], by simp, ?_⟩
        simp only [flagged_steps_count, hj]
        decide
      | some jv =>
        cases jv with
        | dict jes =>
          rw [hj] at hwf
          simp only [Option.isSome_some, Option.getD, pyValues]
          rw [jobsIssues_spec hwf]
          refine ⟨_, _, rfl, ?_⟩
          simp only [List.nil_append, flagged_steps_count, hj]
          exact List.count_replicate_self _ _
        | null => rw [hj] at hwf; simp at hwf
        | bool b => rw [hj] at hwf; simp at hwf
        | int n => rw [hj] at hwf; simp at hwf
        | str s => rw [hj] at hwf; simp at hwf
        | list xs => rw [hj] at hwf; simp at hwf
  | null => simp [wf_content] at hwf
  | bool b => simp [wf_content] at hwf
  | int n => simp [wf_content] at hwf
  | str s => simp [wf_content] at hwf
  | list xs => simp [wf_content] at hwf

/-- A concrete parsed workflow: one job with a CodeQL init step declaring
`python`, a CodeQL analyze step declaring no language, and an unrelated
checkout step. -/
def exampleWorkflow : PyVal :=
  .dict [("name", .str "CI"),
    ("jobs", .dict [("analyze", .dict [("steps", .list [
      .dict [("uses", .str "uses: github/codeql-action/init@v2"),
        ("with", .dict [("languages", .str "python")])],
      .dict [("uses", .str "uses: github/codeql-action/analyze@v2")],
      .dict [("uses", .str "actions/checkout@v4")]])])])]

/-- Witness for C7 at the concrete workflow: exactly the analyze step
without a language is flagged. -/
theorem validate_flags_exactly_unlanguaged_steps_witness :
    ∃ ok issues, validate_workflow_file (.ok exampleWorkflow) = .ok (ok, issues) ∧
      issues.count langIssueMsg = flagged_steps_count exampleWorkflow :=
  validate_flags_exactly_unlanguaged_steps exampleWorkflow (by decide)

/-- C8: the validator returns ok exactly when its issue list is empty, on
every path on which it returns at all; and a parse failure fails closed:
it returns not-ok with the single issue describing the invalid structured
content. -/
theorem validate_ok_iff_no_issues (parsed : Except String PyVal) :
    (∀ ok issues, validate_workflow_file parsed = .ok (ok, issues) →
      (ok = true ↔ issues = [])) ∧
    (∀ e, parsed = .error e →
      validate_workflow_file parsed = .ok (false, ["Invalid YAML content: " ++ e])) := by
  constructor
  · intro ok issues hret
    cases parsed with
    | error e =>
      simp only [validate_workflow_file, Except.ok.injEq, Prod.mk.injEq] at hret
      obtain ⟨rfl, rfl⟩ := hret
      simp
    | ok y =>
      simp only [validate_workflow_file] at hret
      by_cases ht : truthy y = false
      · rw [if_pos ht] at hret
        simp only [Except.ok.injEq, Prod.mk.injEq] at hret
        obtain ⟨rfl, rfl⟩ := hret
        simp
      · rw [if_neg ht] at hret
        cases h1 : pyContainsStr "jobs" y with
        | error e => simp only [h1] at hret; exact absurd hret (by simp)
        | ok hasJobs =>
          simp only [h1] at hret
          cases h2 : pyGet y "jobs" (.dict []) with
          | error e => simp only [h2] at hret; exact absurd hret (by simp)
          | ok jobsV =>
            simp only [h2] at hret
            cases h3 : pyValues jobsV with
            | error e => simp only [h3] at hret; exact absurd hret (by simp)
            | ok jobs =>
              simp only [h3] at hret
              cases h4 : jobsIssues jobs with
              | error e => simp only [h4] at hret; exact absurd hret (by simp)
              | ok rest =>
                simp only [h4, Except.ok.injEq, Prod.mk.injEq] at hret
                obtain ⟨rfl, rfl⟩ := hret
                simp [List.length_eq_zero]
  · rintro e rfl
    rfl

/-- Witness for C8: a well-formed content returns ok with no issues, and
a concrete parse failure yields the single invalid-content issue. -/
theorem validate_ok_iff_no_issues_witness :
    (true = true ↔ ([] : List String) = []) ∧
      validate_workflow_file (Except.error "bad yaml") =
        .ok (false, ["Invalid YAML content: bad yaml"]) :=
  ⟨(validate_ok_iff_no_issues (.ok (.dict [("jobs", .dict [])]))).1 true [] (by rfl),
   (validate_ok_iff_no_issues (.error "bad yaml")).2 "bad yaml" rfl⟩
